import Mathlib

/-!
Verification of the concrete repository's bootstrap test harness, runtime
context and library support layer against its specification.  The C++
sources are shallowly embedded: `uint64_t` arithmetic is `ℕ` with explicit
reduction modulo `2 ^ 64`, pointers that may be null are `Option`,
fallible operations return explicit outcome types.
-/

namespace ConcreteSpec

/-- The modulus of `uint64_t` arithmetic. -/
def U64 : ℕ := 2 ^ 64

/-- The decode step of the bootstrap test harness (`test_bootstrap.cpp`,
amortized test, lines 141-144; textually identical in the low-latency test,
lines 199-202): `rounding_bit = delta >> 1`,
`rounding = (decrypted & rounding_bit) << 1`,
`decoded = (decrypted + rounding) / delta`, all in `uint64_t` arithmetic. -/
def decode (decrypted delta : ℕ) : ℕ :=
  ((decrypted + ((decrypted &&& (delta >>> 1)) <<< 1) % U64) % U64) / delta

/-- The integer fields of the `BootstrapTestParams` struct
(`test_bootstrap.cpp` lines 9-22).  The two `double` variance fields
parameterize only the (absent) Gaussian noise sampler; the modelled noise
terms stand in for their effect. -/
structure BootstrapTestParams where
  lwe_dimension : ℕ
  glwe_dimension : ℕ
  polynomial_size : ℕ
  pbs_base_log : ℕ
  pbs_level : ℕ
  message_modulus : ℕ
  carry_modulus : ℕ
  number_of_inputs : ℕ
  repetitions : ℕ
  samples : ℕ
deriving DecidableEq

/-- Modelled from the spec: `bootstrap_setup` is not among the sources; per
§3 of the spec it configures the plaintext scaling factor
`delta = 2 ^ 64 / (message_modulus * carry_modulus * 2)`. -/
def spec_delta (p : BootstrapTestParams) : ℕ :=
  U64 / (p.message_modulus * p.carry_modulus * 2)

/-- Index into the plaintext array used for repetition `r`, sample `s` and
batch slot `j` (`test_bootstrap.cpp` lines 129-130 and 187-188). -/
def plaintextIndex (p : BootstrapTestParams) (r s j : ℕ) : ℕ :=
  r * p.samples * p.number_of_inputs + s * p.number_of_inputs + j

/-- Modelled from the spec: the composition of a bootstrap kernel with
`concrete_cpu_decrypt_lwe_ciphertext_u64`, both absent from the sources.
Per the kernel contract (§4.3/§4.4) and the noise invariant (§3),
decrypting a bootstrap output under the extracted GLWE key yields the
exact scaled plaintext plus the accumulated noise term, as a `uint64_t`. -/
def decryptedOutput (plaintext : ℕ) (noise : ℤ) : ℕ :=
  (((plaintext : ℤ) + noise) % (U64 : ℤ)).toNat

/-- Modelled from the spec:
`cuda_bootstrap_amortized_lwe_ciphertext_vector_64` (§4.3) followed by
decryption of output slot `i`, with `noise i` the noise accumulated on
that slot. -/
def amortizedBootstrapDecrypted (plaintexts : ℕ → ℕ) (noise : ℕ → ℤ) (i : ℕ) : ℕ :=
  decryptedOutput (plaintexts i) (noise i)

/-- Modelled from the spec:
`cuda_bootstrap_low_latency_lwe_ciphertext_vector_64` (§4.4, same
input/output contract as the amortized variant) followed by decryption of
output slot `i`. -/
def lowLatencyBootstrapDecrypted (plaintexts : ℕ → ℕ) (noise : ℕ → ℤ) (i : ℕ) : ℕ :=
  decryptedOutput (plaintexts i) (noise i)

/-- The harness's decode check, `EXPECT_EQ(decoded, plaintext / delta)`,
ranged over every repetition, sample and batch index exactly as the test
loops do (`test_bootstrap.cpp` lines 102-147). -/
def decodeCheck (p : BootstrapTestParams) (plaintexts : ℕ → ℕ) (decrypted : ℕ → ℕ)
    (delta : ℕ) : Bool :=
  (List.range p.repetitions).all fun r =>
    (List.range p.samples).all fun s =>
      (List.range p.number_of_inputs).all fun j =>
        decode (decrypted (plaintextIndex p r s j)) delta
          == plaintexts (plaintextIndex p r s j) / delta

/-- The harness's noise sanity check, `EXPECT_NE(decrypted, plaintext)`,
ranged over every repetition, sample and batch index exactly as the test
loops do (`test_bootstrap.cpp` lines 131-134 and 189-192). -/
def noiseCheck (p : BootstrapTestParams) (plaintexts : ℕ → ℕ) (decrypted : ℕ → ℕ) : Bool :=
  (List.range p.repetitions).all fun r =>
    (List.range p.samples).all fun s =>
      (List.range p.number_of_inputs).all fun j =>
        decrypted (plaintextIndex p r s j) != plaintexts (plaintextIndex p r s j)

/-- A `std::map<std::string, V>` as the association it represents:
`findEntry` is `map::find`, returning the mapped value when the key is
present and `none` (the end iterator) otherwise. -/
def findEntry {V : Type} : List (String × V) → String → Option V
  | [], _ => none
  | (k, v) :: rest, s => if k = s then some v else findEntry rest s

/-- Embedding of `std::map::insert`: inserts only when the key is absent and returns
the mapped value of the surviving entry (the dereferenced `.first`
iterator of the returned pair). -/
def insertIfAbsent {V : Type} (m : List (String × V)) (s : String) (v : V) :
    List (String × V) × V :=
  match findEntry m s with
  | some v0 => (m, v0)
  | none => ((s, v) :: m, v)

/-- The runtime context operated on by `context.cpp`: the keyswitch key
`ksk` and the bootstrap-key map `bsk`.  Mapped values are
`LweBootstrapKey_u64 *` pointers; `none` models a null pointer. -/
structure RuntimeContext (K : Type) where
  ksk : Option K
  bsk : List (String × Option K)
deriving DecidableEq

/-- The constant `RuntimeContext::BASE_CONTEXT_BSK` (context.cpp line 17). -/
def BASE_CONTEXT_BSK : String := "_concretelang_base_context_bsk"

/-- Outcome of a `get_bootstrap_key` call: the returned key, a failure of
the `assert(bskIt->second && "No bootstrap key available in context")`
assertion, or undefined behaviour (dereferencing the end iterator or
cloning a null pointer). -/
inductive KeyResult (K : Type) where
  | ok (key : K)
  | assertionFailure
  | undefinedBehaviour
deriving DecidableEq

/-- Embedding of `get_keyswitch_key` (context.cpp lines 22-25). -/
def get_keyswitch_key {K : Type} (context : RuntimeContext K) : Option K :=
  context.ksk

/-- Embedding of `get_bootstrap_key` in the build without
`CONCRETELANG_PARALLEL_EXECUTION_ENABLED` (context.cpp lines 41-45):
`bskIt = context->bsk.find(BASE_CONTEXT_BSK)`, then
`assert(bskIt->second && ...)` and `return bskIt->second`.  When the
entry is missing, `bskIt` is the end iterator and `bskIt->second` is
undefined behaviour; the context is never modified. -/
def get_bootstrap_key_seq {K : Type} (context : RuntimeContext K) :
    KeyResult K × RuntimeContext K :=
  match findEntry context.bsk BASE_CONTEXT_BSK with
  | none => (KeyResult.undefinedBehaviour, context)
  | some none => (KeyResult.assertionFailure, context)
  | some (some key) => (KeyResult.ok key, context)

/-- Embedding of `get_bootstrap_key` in the build with
`CONCRETELANG_PARALLEL_EXECUTION_ENABLED` (context.cpp lines 30-44): look
up the calling HPX thread's name; on a miss, read the base key with
`operator[]` (which default-inserts a null pointer when the base entry is
absent), clone it with `clone_lwe_bootstrap_key_u64`, insert the clone
under the thread name with `map::insert`, and let `bskIt` name the
surviving entry; finally run the assertion and return `bskIt->second`.
Cloning a null base pointer is undefined behaviour. -/
def get_bootstrap_key_par {K : Type} (clone : K → K) (context : RuntimeContext K)
    (threadName : String) : KeyResult K × RuntimeContext K :=
  match findEntry context.bsk threadName with
  | some none => (KeyResult.assertionFailure, context)
  | some (some key) => (KeyResult.ok key, context)
  | none =>
    match findEntry context.bsk BASE_CONTEXT_BSK with
    | none =>
      (KeyResult.undefinedBehaviour,
        { context with bsk := (BASE_CONTEXT_BSK, none) :: context.bsk })
    | some none => (KeyResult.undefinedBehaviour, context)
    | some (some base) =>
      match insertIfAbsent context.bsk threadName (some (clone base)) with
      | (m, none) => (KeyResult.assertionFailure, { context with bsk := m })
      | (m, some key) => (KeyResult.ok key, { context with bsk := m })

/-- Modelled from the spec: `clone_lwe_bootstrap_key_u64` is not among the
sources; per §5/§8 it allocates an independent copy with the same key
content, such that bootstrapping with the clone produces the same result
as bootstrapping with the original.  Keys are modelled by their content,
so the clone's content equals the original's. -/
def clone_lwe_bootstrap_key_u64 {K : Type} (key : K) : K := key

/-- Progress of one HPX worker thread executing `get_bootstrap_key`
(parallel build) against the shared context: its thread name, the
recorded result of its `bsk.find(threadName)` call once executed, and the
returned pointer once the call finished. -/
structure WorkerState (K : Type) where
  threadName : String
  found : Option (Option (Option K))
  ret : Option (Option K)
deriving DecidableEq

/-- The shared bootstrap-key map together with every worker's state. -/
structure ConcSystem (K : Type) where
  bsk : List (String × Option K)
  workers : List (WorkerState K)
deriving DecidableEq

/-- The second half of a `get_bootstrap_key` call once its `find` result
is known: a hit returns the found pointer; a miss reads the base key with
`operator[]`, clones it and runs `map::insert`, whose single surviving
entry (winner) supplies the returned pointer.  Each `std::map` member
call is one atomic step. -/
def finishCall {K : Type} (clone : K → K) (bsk : List (String × Option K))
    (threadName : String) (found : Option (Option K)) :
    List (String × Option K) × Option K :=
  match found with
  | some v => (bsk, v)
  | none =>
    match findEntry bsk BASE_CONTEXT_BSK with
    | none => ((BASE_CONTEXT_BSK, none) :: bsk, none)
    | some none => (bsk, none)
    | some (some base) => insertIfAbsent bsk threadName (some (clone base))

/-- One scheduler step: worker `i` executes its next atomic map operation
(first its `find`, then the remainder of the call); finished or
out-of-range workers leave the system unchanged. -/
def concStep {K : Type} (clone : K → K) (sys : ConcSystem K) (i : ℕ) : ConcSystem K :=
  match sys.workers[i]? with
  | none => sys
  | some w =>
    match w.ret with
    | some _ => sys
    | none =>
      match w.found with
      | none =>
        { sys with workers :=
            sys.workers.set i ({ w with found := some (findEntry sys.bsk w.threadName) }) }
      | some fr =>
        let result := finishCall clone sys.bsk w.threadName fr
        { bsk := result.1,
          workers := sys.workers.set i { w with ret := some result.2 } }

/-- Run a schedule: an arbitrary interleaving of the workers' atomic
steps. -/
def concRun {K : Type} (clone : K → K) (sys : ConcSystem K) (sched : List ℕ) :
    ConcSystem K :=
  sched.foldl (concStep clone) sys

/-- The initial system: one base key in the context map and one unstarted
worker per thread name. -/
def initSystem {K : Type} (b : K) (names : List String) : ConcSystem K :=
  { bsk := [(BASE_CONTEXT_BSK, some b)],
    workers := names.map fun n => { threadName := n, found := none, ret := none } }

/-- Inductive invariant of the concurrent key-clone protocol run against
a single base key `b`: the base entry is intact, map keys are distinct
(one surviving entry per identity), every non-base entry is a clone of
the base key, worker names come from `names`, a worker that observed a
hit observed an entry that is still present, and every finished worker
returned the clone that its name maps to. -/
structure CloneInv {K : Type} (clone : K → K) (b : K) (names : List String)
    (sys : ConcSystem K) : Prop where
  base_present : findEntry sys.bsk BASE_CONTEXT_BSK = some (some b)
  keys_nodup : (sys.bsk.map Prod.fst).Nodup
  entries_are_clones : ∀ n v, n ≠ BASE_CONTEXT_BSK → findEntry sys.bsk n = some v →
    v = some (clone b)
  worker_names : ∀ w ∈ sys.workers, w.threadName ∈ names
  found_hit_present : ∀ w ∈ sys.workers, ∀ v, w.found = some (some v) →
    findEntry sys.bsk w.threadName = some v
  ret_val : ∀ w ∈ sys.workers, ∀ v, w.ret = some v →
    v = some (clone b) ∧ findEntry sys.bsk w.threadName = some (some (clone b))

/-- The kernel variant a launch dispatches to. -/
inductive KernelVariant where
  | amortized
  | lowLatency
deriving DecidableEq

/-- Outcome of attempting a low-latency bootstrap launch. -/
inductive LaunchOutcome where
  | rejected
  | executed (variant : KernelVariant)
deriving DecidableEq

/-- The sequential guard of the low-latency test (`test_bootstrap.cpp`
lines 153-156): the test is skipped as an unsupported configuration when
`number_of_inputs > number_of_sm * 4 / (glwe_dimension + 1) / pbs_level`. -/
def lowLatencyTestSkips (p : BootstrapTestParams) (number_of_sm : ℕ) : Bool :=
  p.number_of_inputs > number_of_sm * 4 / (p.glwe_dimension + 1) / p.pbs_level

/-- Modelled from the spec:
`cuda_bootstrap_low_latency_lwe_ciphertext_vector_64` is not among the
sources; per §4.4 and §7 it rejects the configuration up front (reported
as an unsupported configuration, before any kernel work is issued)
whenever `number_of_inputs` exceeds
`(compute_units_available * 4) / ((glwe_dimension + 1) * pbs_level)`, and
otherwise executes the low-latency kernel; it never falls back to the
amortized variant. -/
def lowLatencyLaunch (computeUnits : ℕ) (p : BootstrapTestParams) : LaunchOutcome :=
  if computeUnits * 4 / ((p.glwe_dimension + 1) * p.pbs_level) < p.number_of_inputs
  then LaunchOutcome.rejected
  else LaunchOutcome.executed KernelVariant.lowLatency

/-- Host-visible operations of a bootstrap test body, in program order. -/
inductive HarnessOp where
  | kernelLaunch
  | memcpyAsyncToCpu
  | streamSynchronize
  | blockingCopyToCpu
  | hostReadOutput
deriving DecidableEq

/-- Body of the amortized bootstrap test (`test_bootstrap.cpp` lines
102-148): per repetition and sample, an asynchronous kernel launch of
`cuda_bootstrap_amortized_lwe_ciphertext_vector_64`, an asynchronous
device-to-host copy into `lwe_ct_out_array` (`cuda_memcpy_async_to_cpu`
on the same stream), then `number_of_inputs` host reads of
`lwe_ct_out_array` (one decryption per output ciphertext).  No
synchronization call appears in the test body. -/
def amortizedTestTrace (p : BootstrapTestParams) : List HarnessOp :=
  (List.range p.repetitions).flatMap fun _ =>
    (List.range p.samples).flatMap fun _ =>
      HarnessOp.kernelLaunch :: HarnessOp.memcpyAsyncToCpu ::
        ((List.range p.number_of_inputs).map fun _ => HarnessOp.hostReadOutput)

/-- Body of the low-latency bootstrap test (`test_bootstrap.cpp` lines
157-206), run when the compute-unit guard does not skip it: the same
launch / async-copy / host-read shape, again with no synchronization
call. -/
def lowLatencyTestTrace (p : BootstrapTestParams) : List HarnessOp :=
  (List.range p.repetitions).flatMap fun _ =>
    (List.range p.samples).flatMap fun _ =>
      HarnessOp.kernelLaunch :: HarnessOp.memcpyAsyncToCpu ::
        ((List.range p.number_of_inputs).map fun _ => HarnessOp.hostReadOutput)

/-- The spec's synchronization rule (§5): scanning a trace in program
order, a host read of the output buffer is admissible only when the last
asynchronous copy into it has been completed by an explicit blocking
copy-back or stream synchronization.  The scan state is (all reads so far
admissible, buffer currently safe to read). -/
def readsSynchronized (trace : List HarnessOp) : Bool :=
  (trace.foldl
    (fun st op =>
      match op with
      | HarnessOp.kernelLaunch => st
      | HarnessOp.memcpyAsyncToCpu => (st.1, false)
      | HarnessOp.streamSynchronize => (st.1, true)
      | HarnessOp.blockingCopyToCpu => (st.1, true)
      | HarnessOp.hostReadOutput => (st.1 && st.2, st.2))
    ((true, true) : Bool × Bool)).1

/-- The compilation options consumed by `LibrarySupport::compile`:
`clientParametersFuncName` is an optional entry-point function name. -/
structure CompilationOptions where
  clientParametersFuncName : Option String
deriving DecidableEq

/-- The `LibraryCompilationResult` struct (LibrarySupport.h lines 26-30). -/
structure LibraryCompilationResult where
  libraryPath : String
  funcName : String
deriving DecidableEq

/-- The `LibrarySupport` object (LibrarySupport.h lines 36-37 and
100-102). -/
structure LibrarySupport where
  outputPath : String
  runtimeLibraryPath : String
deriving DecidableEq

/-- Modelled from the spec: `CompilerEngine::compile` is not among the
sources; per §6 it either succeeds, generating the library artifact at
the output path, or fails with a descriptive error message. -/
inductive EngineOutcome where
  | success
  | failure (msg : String)
deriving DecidableEq

/-- Result of `LibrarySupport::compile`, paired with whether the library
artifact was generated at `outputPath` by `engine.compile`. -/
structure CompileOutcome where
  artifactGenerated : Bool
  result : Except String LibraryCompilationResult

/-- Embedding of `LibrarySupport::compile` (LibrarySupport.h lines 39-60): run
`engine.compile(program, outputPath, runtimeLibraryPath)`, which
generates the library at `outputPath`; propagate its error if it failed;
only then fail with "Need to have a funcname to compile library" if no
`clientParametersFuncName` was supplied; otherwise return a
`LibraryCompilationResult` carrying `outputPath` and the supplied
function name. -/
def LibrarySupport.compile (sup : LibrarySupport) (engine : EngineOutcome)
    (options : CompilationOptions) : CompileOutcome :=
  match engine with
  | EngineOutcome.failure msg =>
    { artifactGenerated := false, result := Except.error msg }
  | EngineOutcome.success =>
    { artifactGenerated := true,
      result :=
        match options.clientParametersFuncName with
        | none => Except.error "Need to have a funcname to compile library"
        | some fn => Except.ok { libraryPath := sup.outputPath, funcName := fn } }

/-! ## Theorems -/

/-- When the low `j` bits hold a value below `2 ^ j`, the rounding bit is
clear and decoding truncates. -/
theorem decode_low (j m b : ℕ) (_hj : j + 1 ≤ 63)
    (hmb : m * 2 ^ (j + 1) + b < U64) (hb : b < 2 ^ j) :
    decode (m * 2 ^ (j + 1) + b) (2 ^ (j + 1)) = m := by
  have hb1 : b < 2 ^ (j + 1) := by
    calc b < 2 ^ j := hb
    _ ≤ 2 ^ (j + 1) := Nat.pow_le_pow_right (by norm_num) (by omega)
  have hshift : (2 : ℕ) ^ (j + 1) >>> 1 = 2 ^ j := by
    rw [Nat.shiftRight_eq_div_pow, pow_one, pow_succ]
    exact Nat.mul_div_cancel _ (by norm_num)
  have htb : (m * 2 ^ (j + 1) + b).testBit j = false := by
    rw [mul_comm m, Nat.testBit_mul_pow_two_add m hb1 j, if_pos (by omega)]
    exact Nat.testBit_lt_two_pow hb
  have hand : (m * 2 ^ (j + 1) + b) &&& 2 ^ j = 0 := by
    rw [Nat.and_two_pow, htb]
    simp
  rw [decode, hshift, hand]
  have h0 : ((0 : ℕ) <<< 1) % U64 = 0 := rfl
  rw [h0, Nat.add_zero, Nat.mod_eq_of_lt hmb, mul_comm m, Nat.mul_add_div (by positivity),
    Nat.div_eq_of_lt hb1, Nat.add_zero]

/-- When the low `j + 1` bits hold a value of at least `2 ^ j`, the rounding
bit is set and decoding rounds up (wrapping modulo `2 ^ 64`). -/
theorem decode_high (j m b : ℕ) (hj : j + 1 ≤ 63)
    (hmb : m * 2 ^ (j + 1) + b < U64) (hlo : 2 ^ j ≤ b) (hhi : b < 2 ^ (j + 1)) :
    decode (m * 2 ^ (j + 1) + b) (2 ^ (j + 1)) = (m + 1) % 2 ^ (63 - j) := by
  have hshift : (2 : ℕ) ^ (j + 1) >>> 1 = 2 ^ j := by
    rw [Nat.shiftRight_eq_div_pow, pow_one, pow_succ]
    exact Nat.mul_div_cancel _ (by norm_num)
  have htb : (m * 2 ^ (j + 1) + b).testBit j = true := by
    rw [mul_comm m, Nat.testBit_mul_pow_two_add m hhi j, if_pos (by omega),
      Nat.testBit_to_div_mod]
    have hdiv : b / 2 ^ j = 1 := by
      refine Nat.div_eq_of_lt_le (by omega) ?_
      have h2 : (2 : ℕ) ^ (j + 1) = 2 * 2 ^ j := by ring
      omega
    rw [hdiv]
    rfl
  have hand : (m * 2 ^ (j + 1) + b) &&& 2 ^ j = 2 ^ j := by
    rw [Nat.and_two_pow, htb]
    exact Nat.one_mul _
  have hKlt : (2 : ℕ) ^ (j + 1) < U64 := by
    rw [U64]
    exact Nat.pow_lt_pow_right (by norm_num) (by omega)
  have hround : ((2 ^ j : ℕ) <<< 1) % U64 = 2 ^ (j + 1) := by
    rw [Nat.shiftLeft_eq, pow_one, ← pow_succ]
    exact Nat.mod_eq_of_lt hKlt
  rw [decode, hshift, hand, hround]
  have hTK : 2 ^ (63 - j) * 2 ^ (j + 1) = U64 := by
    rw [U64, ← pow_add]
    congr 1
    omega
  have hmT : m < 2 ^ (63 - j) := by
    by_contra hcon
    push_neg at hcon
    have : 2 ^ (63 - j) * 2 ^ (j + 1) ≤ m * 2 ^ (j + 1) :=
      Nat.mul_le_mul_right _ hcon
    omega
  rcases Nat.lt_or_ge (m + 1) (2 ^ (63 - j)) with hm1 | hm1
  · have hnowrap : m * 2 ^ (j + 1) + b + 2 ^ (j + 1) < U64 := by
      have : (m + 1 + 1) * 2 ^ (j + 1) ≤ 2 ^ (63 - j) * 2 ^ (j + 1) :=
        Nat.mul_le_mul_right _ (by omega)
      have hexp : (m + 1 + 1) * 2 ^ (j + 1) = m * 2 ^ (j + 1) + 2 ^ (j + 1) + 2 ^ (j + 1) := by
        ring
      omega
    rw [Nat.mod_eq_of_lt hnowrap, Nat.mod_eq_of_lt hm1]
    have hsum : m * 2 ^ (j + 1) + b + 2 ^ (j + 1) = 2 ^ (j + 1) * (m + 1) + b := by
      ring
    rw [hsum, Nat.mul_add_div (by positivity), Nat.div_eq_of_lt hhi, Nat.add_zero]
  · have hmeq : m + 1 = 2 ^ (63 - j) := by omega
    have hsum : m * 2 ^ (j + 1) + b + 2 ^ (j + 1) = U64 + b := by
      have : (m + 1) * 2 ^ (j + 1) = m * 2 ^ (j + 1) + 2 ^ (j + 1) := by ring
      rw [hmeq] at this
      omega
    rw [hsum, hmeq, Nat.mod_self]
    have hbmod : (U64 + b) % U64 = b := by
      rw [Nat.add_comm, Nat.add_mod_right]
      exact Nat.mod_eq_of_lt (lt_trans hhi hKlt)
    rw [hbmod]
    exact Nat.div_eq_of_lt hhi

/-- Decoding is exact round-to-nearest: for a power-of-two spacing
`2 ^ k` and noise `e` with `-2 ^ k ≤ 2 * e < 2 ^ k`, decoding the modular
value `m * 2 ^ k + e` recovers `m`. -/
theorem decode_emod_exact (k m : ℕ) (e : ℤ) (hk : k ≤ 63) (hm : m * 2 ^ k < U64)
    (hlo : -(2 ^ k : ℤ) ≤ 2 * e) (hhi : 2 * e < 2 ^ k) :
    decode ((((m : ℤ) * 2 ^ k + e) % (U64 : ℤ)).toNat) (2 ^ k) = m := by
  rcases Nat.eq_zero_or_pos k with hk0 | hkpos
  · subst hk0
    have he : e = 0 := by omega
    subst he
    have hmU : (m : ℤ) * 2 ^ 0 + 0 = (m : ℤ) := by ring
    rw [hmU]
    have hmlt : (m : ℤ) < (U64 : ℤ) := by
      have : m < U64 := by simpa using hm
      exact_mod_cast this
    rw [Int.emod_eq_of_lt (by positivity) hmlt, Int.toNat_natCast]
    rw [decode]
    have h1 : (1 : ℕ) >>> 1 = 0 := rfl
    rw [pow_zero, h1, Nat.and_zero]
    have h0 : ((0 : ℕ) <<< 1) % U64 = 0 := rfl
    rw [h0, Nat.add_zero, Nat.mod_eq_of_lt (by simpa using hm), Nat.div_one]
  · obtain ⟨j, rfl⟩ : ∃ j, k = j + 1 := ⟨k - 1, by omega⟩
    have hj : j + 1 ≤ 63 := hk
    have h2j : (2 : ℕ) ^ (j + 1) = 2 * 2 ^ j := by ring
    have h2jZ : (2 : ℤ) ^ (j + 1) = 2 * 2 ^ j := by ring
    have hjZ : ((2 ^ j : ℕ) : ℤ) = 2 ^ j := by push_cast; ring
    have hKZ : ((2 ^ (j + 1) : ℕ) : ℤ) = 2 ^ (j + 1) := by push_cast; ring
    have hTK : 2 ^ (63 - j) * 2 ^ (j + 1) = U64 := by
      rw [U64, ← pow_add]
      congr 1
      omega
    have hmT : m < 2 ^ (63 - j) := by
      by_contra hcon
      push_neg at hcon
      have : 2 ^ (63 - j) * 2 ^ (j + 1) ≤ m * 2 ^ (j + 1) :=
        Nat.mul_le_mul_right _ hcon
      omega
    have hUZ : ((U64 : ℕ) : ℤ) = (U64 : ℤ) := rfl
    rcases le_or_lt 0 e with hepos | heneg
    · -- nonnegative noise: the rounding bit is clear
      set b : ℕ := e.toNat with hbdef
      have heb : e = (b : ℤ) := (Int.toNat_of_nonneg hepos).symm
      have hbj : b < 2 ^ j := by
        have : e < 2 ^ j := by omega
        omega
      have hmb : m * 2 ^ (j + 1) + b < U64 := by
        have hstep : (m + 1) * 2 ^ (j + 1) ≤ 2 ^ (63 - j) * 2 ^ (j + 1) :=
          Nat.mul_le_mul_right _ (by omega)
        have hexp : (m + 1) * 2 ^ (j + 1) = m * 2 ^ (j + 1) + 2 ^ (j + 1) := by
          ring
        omega
      have hval : ((m : ℤ) * 2 ^ (j + 1) + e) % (U64 : ℤ) = ((m * 2 ^ (j + 1) + b : ℕ) : ℤ) := by
        have hcast : (m : ℤ) * 2 ^ (j + 1) + e = ((m * 2 ^ (j + 1) + b : ℕ) : ℤ) := by
          rw [heb]
          push_cast
          ring
        rw [hcast]
        refine Int.emod_eq_of_lt (by positivity) ?_
        exact_mod_cast hmb
      rw [hval, Int.toNat_natCast]
      exact decode_low j m b hj hmb hbj
    · -- negative noise: the rounding bit is set and rounding restores `m`
      set f : ℕ := (-e).toNat with hfdef
      have hef : e = -(f : ℤ) := by omega
      have hf1 : 1 ≤ f := by omega
      have hfj : f ≤ 2 ^ j := by
        have h2e : -(2 * 2 ^ j : ℤ) ≤ 2 * e := by
          rw [← h2jZ]
          exact hlo
        omega
      rcases Nat.eq_zero_or_pos m with hm0 | hmpos
      · -- `m = 0`: the decrypted value wraps to the top of the `uint64_t` range
        subst hm0
        set M : ℕ := 2 ^ (63 - j) - 1 with hMdef
        set b : ℕ := 2 ^ (j + 1) - f with hbdef
        have hT1 : 1 ≤ 2 ^ (63 - j) := Nat.one_le_two_pow
        have hMK : M * 2 ^ (j + 1) + b = U64 - f := by
          have hsum : (M + 1) * 2 ^ (j + 1) = U64 := by
            rw [hMdef, Nat.sub_add_cancel hT1, hTK]
          have hexp : (M + 1) * 2 ^ (j + 1) = M * 2 ^ (j + 1) + 2 ^ (j + 1) := by
            ring
          omega
        have hUpos : (0 : ℤ) < (U64 : ℤ) := by norm_num [U64]
        have hfU : (f : ℤ) < (U64 : ℤ) := by
          have hjU : (2 : ℕ) ^ j < U64 := by
            rw [U64]
            exact Nat.pow_lt_pow_right (by norm_num) (by omega)
          have : (f : ℕ) < U64 := by omega
          exact_mod_cast this
        have hval : (((0 : ℕ) : ℤ) * 2 ^ (j + 1) + e) % (U64 : ℤ)
            = ((M * 2 ^ (j + 1) + b : ℕ) : ℤ) := by
          have hshiftmod : e % (U64 : ℤ) = e + (U64 : ℤ) := by
            have h1 : e % (U64 : ℤ) = (e + (U64 : ℤ) * 1) % (U64 : ℤ) :=
              (Int.add_mul_emod_self_left e ((U64 : ℕ) : ℤ) 1).symm
            rw [h1, mul_one]
            refine Int.emod_eq_of_lt (by omega) (by omega)
          have hcast : ((M * 2 ^ (j + 1) + b : ℕ) : ℤ) = (U64 : ℤ) - (f : ℤ) := by
            rw [hMK]
            have hfU64 : f ≤ U64 := by omega
            push_cast [hfU64]
            rfl
          rw [Nat.cast_zero, zero_mul, zero_add, hshiftmod, hcast]
          omega
        rw [hval, Int.toNat_natCast]
        have hblo : 2 ^ j ≤ b := by omega
        have hbhi : b < 2 ^ (j + 1) := by omega
        have hmb : M * 2 ^ (j + 1) + b < U64 := by omega
        rw [decode_high j M b hj hmb hblo hbhi, hMdef, Nat.sub_add_cancel hT1, Nat.mod_self]
      · -- `m ≥ 1`: borrow one spacing from the message
        set M : ℕ := m - 1 with hMdef
        set b : ℕ := 2 ^ (j + 1) - f with hbdef
        have hMK : M * 2 ^ (j + 1) + b = m * 2 ^ (j + 1) - f := by
          have hM1 : (M + 1) * 2 ^ (j + 1) = m * 2 ^ (j + 1) := by
            rw [hMdef, Nat.sub_add_cancel hmpos]
          have hexp : (M + 1) * 2 ^ (j + 1) = M * 2 ^ (j + 1) + 2 ^ (j + 1) := by
            ring
          have hfK2 : f ≤ 2 ^ (j + 1) := by omega
          omega
        have hfK : f ≤ 2 ^ (j + 1) := by omega
        have hfmK : (f : ℕ) ≤ m * 2 ^ (j + 1) := by
          have : 1 * 2 ^ (j + 1) ≤ m * 2 ^ (j + 1) := Nat.mul_le_mul_right _ hmpos
          omega
        have hval : ((m : ℤ) * 2 ^ (j + 1) + e) % (U64 : ℤ) = ((M * 2 ^ (j + 1) + b : ℕ) : ℤ) := by
          have hcast : (m : ℤ) * 2 ^ (j + 1) + e = ((M * 2 ^ (j + 1) + b : ℕ) : ℤ) := by
            rw [hef, hMK]
            push_cast [hfmK]
            ring
          rw [hcast]
          refine Int.emod_eq_of_lt (by positivity) ?_
          have : M * 2 ^ (j + 1) + b < U64 := by omega
          exact_mod_cast this
        rw [hval, Int.toNat_natCast]
        have hblo : 2 ^ j ≤ b := by omega
        have hbhi : b < 2 ^ (j + 1) := by omega
        have hmb : M * 2 ^ (j + 1) + b < U64 := by omega
        rw [decode_high j M b hj hmb hblo hbhi, hMdef, Nat.sub_add_cancel hmpos,
          Nat.mod_eq_of_lt hmT]

/-- C2: the decode step is exact round-to-nearest under bounded noise: for
every power-of-two scaling factor `delta = 2 ^ k`, every message multiple
`p = m * delta < 2 ^ 64`, and every integer noise `e` with
`-delta / 2 ≤ e < delta / 2` such that `p + e` lies in `[0, 2 ^ 64)`, the
decoded value `(decrypted + ((decrypted &&& (delta >>> 1)) <<< 1)) / delta`
computed in 64-bit unsigned arithmetic on `decrypted = p + e` equals
`m = p / delta`. -/
theorem decode_round_to_nearest_exact (k m : ℕ) (e : ℤ) (hk : k ≤ 63)
    (hm : m * 2 ^ k < U64)
    (hlo : -(2 ^ k : ℤ) ≤ 2 * e) (hhi : 2 * e < 2 ^ k)
    (hlow : 0 ≤ (m : ℤ) * 2 ^ k + e) (hhigh : (m : ℤ) * 2 ^ k + e < (U64 : ℤ)) :
    decode (((m : ℤ) * 2 ^ k + e).toNat) (2 ^ k) = m ∧ m = m * 2 ^ k / 2 ^ k := by
  constructor
  · have hmod : ((m : ℤ) * 2 ^ k + e) % (U64 : ℤ) = (m : ℤ) * 2 ^ k + e :=
      Int.emod_eq_of_lt hlow hhigh
    have := decode_emod_exact k m e hk hm hlo hhi
    rw [hmod] at this
    exact this
  · exact (Nat.mul_div_cancel m (by positivity)).symm

/-- Witness for C2 at `delta = 2 ^ 8`, `m = 3`, `e = -5`: decoding
`3 * 256 - 5 = 763` yields `3`. -/
theorem decode_round_to_nearest_exact_witness :
    decode (((3 : ℤ) * 2 ^ 8 + (-5)).toNat) (2 ^ 8) = 3 ∧ 3 = 3 * 2 ^ 8 / 2 ^ 8 :=
  decode_round_to_nearest_exact 8 3 (-5) (by norm_num) (by norm_num [U64])
    (by norm_num) (by norm_num) (by norm_num) (by norm_num [U64])

/-- Decoding a bootstrap output recovers `plaintext / delta` whenever the
plaintext is a multiple of the power-of-two `delta` and the accumulated
noise stays below `delta / 2`. -/
theorem decode_decryptedOutput (k pt : ℕ) (e : ℤ) (hk : k ≤ 63)
    (hpt0 : pt % 2 ^ k = 0) (hptU : pt < U64)
    (h1 : -(2 ^ k : ℤ) ≤ 2 * e) (h2 : 2 * e < 2 ^ k) :
    decode (decryptedOutput pt e) (2 ^ k) = pt / 2 ^ k := by
  have hdvd : 2 ^ k ∣ pt := Nat.dvd_of_mod_eq_zero hpt0
  have hpt : pt / 2 ^ k * 2 ^ k = pt := Nat.div_mul_cancel hdvd
  have hmU : pt / 2 ^ k * 2 ^ k < U64 := by omega
  have hcast : (pt : ℤ) = ((pt / 2 ^ k : ℕ) : ℤ) * 2 ^ k := by
    exact_mod_cast (congrArg (fun n : ℕ => (n : ℤ)) hpt).symm
  have := decode_emod_exact k (pt / 2 ^ k) e hk hmU h1 h2
  rw [decryptedOutput, hcast]
  exact this

/-- A bootstrap output decrypts to something different from the exact
scaled plaintext whenever the accumulated noise is non-zero (and bounded,
so that the `uint64_t` reduction cannot cancel it). -/
theorem decryptedOutput_ne (k pt : ℕ) (e : ℤ) (hk : k ≤ 63) (hpt : pt < U64)
    (h1 : -(2 ^ k : ℤ) ≤ 2 * e) (h2 : 2 * e < 2 ^ k) (hne : e ≠ 0) :
    decryptedOutput pt e ≠ pt := by
  intro hcontra
  have hU : ((U64 : ℕ) : ℤ) = (18446744073709551616 : ℤ) := by norm_num [U64]
  have hkb : (2 : ℤ) ^ k ≤ 2 ^ 63 := pow_le_pow_right₀ (by norm_num) hk
  have hX0 : (0 : ℤ) ≤ ((pt : ℤ) + e) % (U64 : ℤ) :=
    Int.emod_nonneg _ (by rw [hU]; norm_num)
  have hXeq : ((pt : ℤ) + e) % (U64 : ℤ) = (pt : ℤ) := by
    have hc : ((((pt : ℤ) + e) % (U64 : ℤ)).toNat : ℤ) = (pt : ℤ) :=
      congrArg (fun n : ℕ => (n : ℤ)) hcontra
    rw [Int.toNat_of_nonneg hX0] at hc
    exact hc
  have hptmod : (pt : ℤ) % (U64 : ℤ) = (pt : ℤ) := by
    refine Int.emod_eq_of_lt (by positivity) ?_
    exact_mod_cast hpt
  have hsub := Int.sub_emod ((pt : ℤ) + e) (pt : ℤ) (U64 : ℤ)
  rw [hXeq, hptmod, sub_self, Int.zero_emod] at hsub
  have hesimp : (pt : ℤ) + e - (pt : ℤ) = e := by ring
  rw [hesimp] at hsub
  rw [hU] at hsub
  have hb1 : -(9223372036854775808 : ℤ) ≤ 2 * e := by
    have : -(9223372036854775808 : ℤ) ≤ -(2 ^ k : ℤ) := by
      norm_num
      exact hkb
    omega
  have hb2 : 2 * e < (9223372036854775808 : ℤ) := by
    have : (2 : ℤ) ^ k ≤ 9223372036854775808 := by
      norm_num at hkb ⊢
      exact hkb
    omega
  omega

/-- C1: bootstrap round-trip correctness across both kernel variants: for
every repetition `r`, sample `s` and batch index `j`, decoding the
decryption of output `j` of the amortized (or the low-latency)
bootstrap invoked with the identity LUT equals `plaintext / delta`,
uniformly in the batch index and independent of `number_of_inputs`,
provided accumulated noise stays below `delta / 2`. -/
theorem bootstrap_roundtrip_both_variants (p : BootstrapTestParams) (k : ℕ)
    (plaintexts : ℕ → ℕ) (noiseA noiseL : ℕ → ℤ) (delta : ℕ)
    (hdelta : delta = spec_delta p) (hpow : delta = 2 ^ k) (hk : k ≤ 63)
    (hpt : ∀ i, plaintexts i % delta = 0 ∧ plaintexts i < U64)
    (hnA : ∀ i, -(delta : ℤ) ≤ 2 * noiseA i ∧ 2 * noiseA i < delta)
    (hnL : ∀ i, -(delta : ℤ) ≤ 2 * noiseL i ∧ 2 * noiseL i < delta) :
    (∀ r s j,
      decode (amortizedBootstrapDecrypted plaintexts noiseA (plaintextIndex p r s j)) delta
        = plaintexts (plaintextIndex p r s j) / delta) ∧
    (∀ r s j,
      decode (lowLatencyBootstrapDecrypted plaintexts noiseL (plaintextIndex p r s j)) delta
        = plaintexts (plaintextIndex p r s j) / delta) ∧
    decodeCheck p plaintexts (amortizedBootstrapDecrypted plaintexts noiseA) delta = true ∧
    decodeCheck p plaintexts (lowLatencyBootstrapDecrypted plaintexts noiseL) delta = true := by
  subst hpow
  have hcast : ((2 ^ k : ℕ) : ℤ) = (2 ^ k : ℤ) := by push_cast; ring
  have hA : ∀ i, decode (amortizedBootstrapDecrypted plaintexts noiseA i) (2 ^ k)
      = plaintexts i / 2 ^ k := by
    intro i
    refine decode_decryptedOutput k (plaintexts i) (noiseA i) hk (hpt i).1 (hpt i).2 ?_ ?_
    · rw [← hcast]
      exact (hnA i).1
    · rw [← hcast]
      exact (hnA i).2
  have hL : ∀ i, decode (lowLatencyBootstrapDecrypted plaintexts noiseL i) (2 ^ k)
      = plaintexts i / 2 ^ k := by
    intro i
    refine decode_decryptedOutput k (plaintexts i) (noiseL i) hk (hpt i).1 (hpt i).2 ?_ ?_
    · rw [← hcast]
      exact (hnL i).1
    · rw [← hcast]
      exact (hnL i).2
  refine ⟨fun r s j => hA _, fun r s j => hL _, ?_, ?_⟩
  · simp only [decodeCheck, List.all_eq_true, List.mem_range, beq_iff_eq]
    intro r _ s _ j _
    exact hA _
  · simp only [decodeCheck, List.all_eq_true, List.mem_range, beq_iff_eq]
    intro r _ s _ j _
    exact hL _

/-- Witness for C1 at the first configured parameter set
(`n=567, k=5, N=256, base_log=15, level=1, msg=2, carry=1`, 5 inputs,
2 repetitions, 5 samples), `delta = 2 ^ 62`, plaintext messages `i % 2`
and noise `+3` / `-3`. -/
theorem bootstrap_roundtrip_both_variants_witness :
    decodeCheck ⟨567, 5, 256, 15, 1, 2, 1, 5, 2, 5⟩ (fun i => (i % 2) * 2 ^ 62)
      (amortizedBootstrapDecrypted (fun i => (i % 2) * 2 ^ 62) (fun _ => 3)) (2 ^ 62) = true ∧
    decodeCheck ⟨567, 5, 256, 15, 1, 2, 1, 5, 2, 5⟩ (fun i => (i % 2) * 2 ^ 62)
      (lowLatencyBootstrapDecrypted (fun i => (i % 2) * 2 ^ 62) (fun _ => -3)) (2 ^ 62)
        = true := by
  have h := bootstrap_roundtrip_both_variants ⟨567, 5, 256, 15, 1, 2, 1, 5, 2, 5⟩ 62
    (fun i => (i % 2) * 2 ^ 62) (fun _ => 3) (fun _ => -3) (2 ^ 62)
    (by decide) rfl (by norm_num)
    (fun i => ⟨Nat.mul_mod_left _ _, by
      have hi : i % 2 ≤ 1 := Nat.le_of_lt_succ (Nat.mod_lt _ (by norm_num))
      have h62 : (i % 2) * 2 ^ 62 ≤ 1 * 2 ^ 62 := Nat.mul_le_mul_right _ hi
      show (i % 2) * 2 ^ 62 < U64
      rw [U64]
      omega⟩)
    (fun i => ⟨by norm_num, by norm_num⟩)
    (fun i => ⟨by norm_num, by norm_num⟩)
  exact ⟨h.2.2.1, h.2.2.2⟩

/-- C8: noise non-equality: at every repetition, sample and batch index,
and in both kernel variants, the raw decrypted scalar differs from the
exact scaled plaintext whenever the (bounded) accumulated noise is
non-zero, which the spec asserts of the real noise sampler. -/
theorem noise_nonequality_both_variants (p : BootstrapTestParams) (k : ℕ)
    (plaintexts : ℕ → ℕ) (noiseA noiseL : ℕ → ℤ) (hk : k ≤ 63)
    (hpt : ∀ i, plaintexts i < U64)
    (hnA : ∀ i, (-(2 ^ k : ℤ) ≤ 2 * noiseA i ∧ 2 * noiseA i < 2 ^ k) ∧ noiseA i ≠ 0)
    (hnL : ∀ i, (-(2 ^ k : ℤ) ≤ 2 * noiseL i ∧ 2 * noiseL i < 2 ^ k) ∧ noiseL i ≠ 0) :
    (∀ r s j,
      amortizedBootstrapDecrypted plaintexts noiseA (plaintextIndex p r s j)
        ≠ plaintexts (plaintextIndex p r s j)) ∧
    (∀ r s j,
      lowLatencyBootstrapDecrypted plaintexts noiseL (plaintextIndex p r s j)
        ≠ plaintexts (plaintextIndex p r s j)) ∧
    noiseCheck p plaintexts (amortizedBootstrapDecrypted plaintexts noiseA) = true ∧
    noiseCheck p plaintexts (lowLatencyBootstrapDecrypted plaintexts noiseL) = true := by
  have hA : ∀ i, amortizedBootstrapDecrypted plaintexts noiseA i ≠ plaintexts i := fun i =>
    decryptedOutput_ne k (plaintexts i) (noiseA i) hk (hpt i) (hnA i).1.1 (hnA i).1.2 (hnA i).2
  have hL : ∀ i, lowLatencyBootstrapDecrypted plaintexts noiseL i ≠ plaintexts i := fun i =>
    decryptedOutput_ne k (plaintexts i) (noiseL i) hk (hpt i) (hnL i).1.1 (hnL i).1.2 (hnL i).2
  refine ⟨fun r s j => hA _, fun r s j => hL _, ?_, ?_⟩
  · simp only [noiseCheck, List.all_eq_true, List.mem_range, bne_iff_ne, ne_eq]
    intro r _ s _ j _
    exact hA _
  · simp only [noiseCheck, List.all_eq_true, List.mem_range, bne_iff_ne, ne_eq]
    intro r _ s _ j _
    exact hL _

/-- Witness for C8 at the first configured parameter set with noise
`+5` / `-5`. -/
theorem noise_nonequality_both_variants_witness :
    noiseCheck ⟨567, 5, 256, 15, 1, 2, 1, 5, 2, 5⟩ (fun i => (i % 2) * 2 ^ 62)
      (amortizedBootstrapDecrypted (fun i => (i % 2) * 2 ^ 62) (fun _ => 5)) = true ∧
    noiseCheck ⟨567, 5, 256, 15, 1, 2, 1, 5, 2, 5⟩ (fun i => (i % 2) * 2 ^ 62)
      (lowLatencyBootstrapDecrypted (fun i => (i % 2) * 2 ^ 62) (fun _ => -5)) = true := by
  have h := noise_nonequality_both_variants ⟨567, 5, 256, 15, 1, 2, 1, 5, 2, 5⟩ 62
    (fun i => (i % 2) * 2 ^ 62) (fun _ => 5) (fun _ => -5) (by norm_num)
    (fun i => by
      have hi : i % 2 ≤ 1 := Nat.le_of_lt_succ (Nat.mod_lt _ (by norm_num))
      have h62 : (i % 2) * 2 ^ 62 ≤ 1 * 2 ^ 62 := Nat.mul_le_mul_right _ hi
      show (i % 2) * 2 ^ 62 < U64
      rw [U64]
      omega)
    (fun i => ⟨⟨by norm_num, by norm_num⟩, by norm_num⟩)
    (fun i => ⟨⟨by norm_num, by norm_num⟩, by norm_num⟩)
  exact ⟨h.2.2.1, h.2.2.2⟩

/-- C4: `get_bootstrap_key` (parallel build) is a memoized per-thread
clone factory: with the base key present, a call from a thread whose name
is already mapped returns the stored key and leaves the context
unchanged; a call from an unmapped thread inserts exactly one clone of
the base key under that name and returns it, and a second call from the
same thread returns the same clone without modifying the context. -/
theorem get_bootstrap_key_memoized_clone_factory {K : Type} (clone : K → K)
    (context : RuntimeContext K) (threadName : String) (b : K)
    (hbase : findEntry context.bsk BASE_CONTEXT_BSK = some (some b)) :
    (∀ key, findEntry context.bsk threadName = some (some key) →
      get_bootstrap_key_par clone context threadName = (KeyResult.ok key, context)) ∧
    (findEntry context.bsk threadName = none →
      get_bootstrap_key_par clone context threadName
          = (KeyResult.ok (clone b),
             { context with bsk := (threadName, some (clone b)) :: context.bsk }) ∧
      get_bootstrap_key_par clone
          { context with bsk := (threadName, some (clone b)) :: context.bsk } threadName
          = (KeyResult.ok (clone b),
             { context with bsk := (threadName, some (clone b)) :: context.bsk })) := by
  constructor
  · intro key hfound
    rw [get_bootstrap_key_par, hfound]
  · intro hmiss
    constructor
    · have hins : insertIfAbsent context.bsk threadName (some (clone b))
          = ((threadName, some (clone b)) :: context.bsk, some (clone b)) := by
        simp only [insertIfAbsent, hmiss]
      simp only [get_bootstrap_key_par, hmiss, hbase, hins]
    · rw [get_bootstrap_key_par]
      have hhit : findEntry ((threadName, some (clone b)) :: context.bsk) threadName
          = some (some (clone b)) := by
        rw [findEntry, if_pos rfl]
      rw [hhit]

/-- Witness for C4 over `K = ℕ` with base key `7` and clone `Nat.succ`:
the first call from thread `worker-1` inserts and returns the clone `8`,
the second returns the same clone and leaves the context unchanged. -/
theorem get_bootstrap_key_memoized_clone_factory_witness :
    get_bootstrap_key_par Nat.succ
        ⟨none, [(BASE_CONTEXT_BSK, some 7)]⟩ "worker-1"
        = (KeyResult.ok 8, ⟨none, [("worker-1", some 8), (BASE_CONTEXT_BSK, some 7)]⟩) ∧
    get_bootstrap_key_par Nat.succ
        ⟨none, [("worker-1", some 8), (BASE_CONTEXT_BSK, some 7)]⟩ "worker-1"
        = (KeyResult.ok 8, ⟨none, [("worker-1", some 8), (BASE_CONTEXT_BSK, some 7)]⟩) := by
  have h := get_bootstrap_key_memoized_clone_factory Nat.succ
    ⟨none, [(BASE_CONTEXT_BSK, some 7)]⟩ "worker-1" 7 (by decide)
  have h2 := h.2 (by decide)
  exact ⟨h2.1, h2.2⟩

/-- C9: `get_bootstrap_key` in the build without parallel execution has
the unstated precondition that the context's map holds a non-null entry
under `BASE_CONTEXT_BSK`: under it the entry is returned and the context
is not modified; a null stored pointer trips the assertion, while a
missing entry is undefined behaviour (the end iterator is dereferenced),
which the assertion does not guard against. -/
theorem get_bootstrap_key_seq_requires_base_entry {K : Type}
    (context : RuntimeContext K) :
    (∀ key, findEntry context.bsk BASE_CONTEXT_BSK = some (some key) →
      get_bootstrap_key_seq context = (KeyResult.ok key, context)) ∧
    (findEntry context.bsk BASE_CONTEXT_BSK = some none →
      get_bootstrap_key_seq context = (KeyResult.assertionFailure, context)) ∧
    (findEntry context.bsk BASE_CONTEXT_BSK = none →
      get_bootstrap_key_seq context = (KeyResult.undefinedBehaviour, context)) := by
  refine ⟨fun key hf => ?_, fun hf => ?_, fun hf => ?_⟩ <;>
    rw [get_bootstrap_key_seq, hf]

/-- Witness for C9 over `K = ℕ`: a present non-null base entry is
returned unchanged, a null base entry trips the assertion, and an empty
map is the undefined-behaviour case. -/
theorem get_bootstrap_key_seq_requires_base_entry_witness :
    get_bootstrap_key_seq (⟨none, [(BASE_CONTEXT_BSK, some 7)]⟩ : RuntimeContext ℕ)
        = (KeyResult.ok 7, ⟨none, [(BASE_CONTEXT_BSK, some 7)]⟩) ∧
    get_bootstrap_key_seq (⟨none, [(BASE_CONTEXT_BSK, none)]⟩ : RuntimeContext ℕ)
        = (KeyResult.assertionFailure, ⟨none, [(BASE_CONTEXT_BSK, none)]⟩) ∧
    get_bootstrap_key_seq (⟨none, []⟩ : RuntimeContext ℕ)
        = (KeyResult.undefinedBehaviour, ⟨none, []⟩) :=
  ⟨(get_bootstrap_key_seq_requires_base_entry _).1 7 (by decide),
   (get_bootstrap_key_seq_requires_base_entry _).2.1 (by decide),
   (get_bootstrap_key_seq_requires_base_entry _).2.2 (by decide)⟩

/-- A key misses in `findEntry` exactly when it is absent from the key
list. -/
theorem findEntry_eq_none_iff {V : Type} (m : List (String × V)) (s : String) :
    findEntry m s = none ↔ s ∉ m.map Prod.fst := by
  induction m with
  | nil => simp [findEntry]
  | cons kv rest ih =>
    obtain ⟨k, v⟩ := kv
    by_cases hk : k = s
    · subst hk
      simp [findEntry]
    · rw [findEntry, if_neg hk]
      simp only [List.map_cons, List.mem_cons]
      rw [ih]
      constructor
      · intro h hcon
        rcases hcon with h1 | h2
        · exact hk h1.symm
        · exact h h2
      · intro h hm
        exact h (Or.inr hm)

/-- Present entries persist when an absent key is prepended. -/
theorem findEntry_cons_of_present {V : Type} (m : List (String × V)) (s n : String)
    (v w : V) (habs : findEntry m s = none) (h : findEntry m n = some w) :
    findEntry ((s, v) :: m) n = some w := by
  rw [findEntry]
  by_cases hs : s = n
  · subst hs
    rw [habs] at h
    cases h
  · rw [if_neg hs]
    exact h

/-- The clone-protocol invariant holds of the initial system. -/
theorem cloneInv_init {K : Type} (clone : K → K) (b : K) (names : List String) :
    CloneInv clone b names (initSystem b names) := by
  refine ⟨?_, ?_, ?_, ?_, ?_, ?_⟩
  · rw [initSystem]
    rw [findEntry, if_pos rfl]
  · simp [initSystem]
  · intro n v hne hf
    rw [initSystem] at hf
    simp only at hf
    rw [findEntry, if_neg (fun h => hne h.symm), findEntry] at hf
    cases hf
  · intro w hw
    rw [initSystem] at hw
    simp only [List.mem_map] at hw
    obtain ⟨n, hmem, rfl⟩ := hw
    exact hmem
  · intro w hw v hfound
    rw [initSystem] at hw
    simp only [List.mem_map] at hw
    obtain ⟨n, hmem, rfl⟩ := hw
    cases hfound
  · intro w hw v hret
    rw [initSystem] at hw
    simp only [List.mem_map] at hw
    obtain ⟨n, hmem, rfl⟩ := hw
    cases hret

/-- An out-of-range worker index leaves the system unchanged. -/
theorem concStep_of_oob {K : Type} (clone : K → K) (sys : ConcSystem K) (i : ℕ)
    (hw : sys.workers[i]? = none) : concStep clone sys i = sys := by
  simp only [concStep, hw]

/-- A finished worker leaves the system unchanged. -/
theorem concStep_of_done {K : Type} (clone : K → K) (sys : ConcSystem K) (i : ℕ)
    (w : WorkerState K) (rv : Option K) (hw : sys.workers[i]? = some w)
    (hret : w.ret = some rv) : concStep clone sys i = sys := by
  simp only [concStep, hw, hret]

/-- A worker that has not yet run its `find` executes it. -/
theorem concStep_of_find {K : Type} (clone : K → K) (sys : ConcSystem K) (i : ℕ)
    (w : WorkerState K) (hw : sys.workers[i]? = some w)
    (hret : w.ret = none) (hfound : w.found = none) :
    concStep clone sys i
      = { sys with workers :=
            sys.workers.set i ({ w with found := some (findEntry sys.bsk w.threadName) }) } := by
  simp only [concStep, hw, hret, hfound]

/-- A worker that has run its `find` completes the call. -/
theorem concStep_of_finish {K : Type} (clone : K → K) (sys : ConcSystem K) (i : ℕ)
    (w : WorkerState K) (fr : Option (Option K)) (hw : sys.workers[i]? = some w)
    (hret : w.ret = none) (hfound : w.found = some fr) :
    concStep clone sys i
      = { bsk := (finishCall clone sys.bsk w.threadName fr).1,
          workers := sys.workers.set i
            ({ w with ret := some (finishCall clone sys.bsk w.threadName fr).2 }) } := by
  simp only [concStep, hw, hret, hfound]

/-- One scheduler step preserves the clone-protocol invariant. -/
theorem cloneInv_step {K : Type} (clone : K → K) (b : K) (names : List String)
    (hn : ∀ n ∈ names, n ≠ BASE_CONTEXT_BSK)
    (sys : ConcSystem K) (hinv : CloneInv clone b names sys) (i : ℕ) :
    CloneInv clone b names (concStep clone sys i) := by
  cases hw : sys.workers[i]? with
  | none =>
    rw [concStep_of_oob clone sys i hw]
    exact hinv
  | some w =>
    have hwmem : w ∈ sys.workers := List.getElem?_mem hw
    have hname : w.threadName ≠ BASE_CONTEXT_BSK := hn _ (hinv.worker_names w hwmem)
    cases hret : w.ret with
    | some rv =>
      rw [concStep_of_done clone sys i w rv hw hret]
      exact hinv
    | none =>
      cases hfound : w.found with
      | none =>
        rw [concStep_of_find clone sys i w hw hret hfound]
        refine ⟨hinv.base_present, hinv.keys_nodup, hinv.entries_are_clones, ?_, ?_, ?_⟩
        · intro w' hw'
          rcases List.mem_or_eq_of_mem_set hw' with hmem | rfl
          · exact hinv.worker_names w' hmem
          · exact hinv.worker_names w hwmem
        · intro w' hw' v hfound'
          rcases List.mem_or_eq_of_mem_set hw' with hmem | rfl
          · exact hinv.found_hit_present w' hmem v hfound'
          · have h2 : some (findEntry sys.bsk w.threadName) = some (some v) := hfound'
            exact Option.some.inj h2
        · intro w' hw' v hret'
          rcases List.mem_or_eq_of_mem_set hw' with hmem | rfl
          · exact hinv.ret_val w' hmem v hret'
          · have h2 : w.ret = some v := hret'
            rw [hret] at h2
            exact Option.noConfusion h2
      | some fr =>
        rw [concStep_of_finish clone sys i w fr hw hret hfound]
        cases fr with
        | some v0 =>
          have hpres : findEntry sys.bsk w.threadName = some v0 :=
            hinv.found_hit_present w hwmem v0 hfound
          have hclone : v0 = some (clone b) :=
            hinv.entries_are_clones _ _ hname hpres
          have hfin : finishCall clone sys.bsk w.threadName (some v0) = (sys.bsk, v0) := rfl
          rw [hfin]
          refine ⟨hinv.base_present, hinv.keys_nodup, hinv.entries_are_clones, ?_, ?_, ?_⟩
          · intro w' hw'
            rcases List.mem_or_eq_of_mem_set hw' with hmem | rfl
            · exact hinv.worker_names w' hmem
            · exact hinv.worker_names w hwmem
          · intro w' hw' v hfound'
            rcases List.mem_or_eq_of_mem_set hw' with hmem | rfl
            · exact hinv.found_hit_present w' hmem v hfound'
            · have h2 : w.found = some (some v) := hfound'
              rw [hfound] at h2
              obtain rfl : v0 = v := Option.some.inj (Option.some.inj h2)
              exact hpres
          · intro w' hw' v hret'
            rcases List.mem_or_eq_of_mem_set hw' with hmem | rfl
            · exact hinv.ret_val w' hmem v hret'
            · have h2 : some v0 = some v := hret'
              obtain rfl : v0 = v := Option.some.inj h2
              subst hclone
              exact ⟨rfl, hpres⟩
        | none =>
          have hfin : finishCall clone sys.bsk w.threadName none
              = insertIfAbsent sys.bsk w.threadName (some (clone b)) := by
            simp only [finishCall, hinv.base_present]
          rw [hfin]
          cases hfind2 : findEntry sys.bsk w.threadName with
          | some v1 =>
            have hclone : v1 = some (clone b) :=
              hinv.entries_are_clones _ _ hname hfind2
            have hins : insertIfAbsent sys.bsk w.threadName (some (clone b))
                = (sys.bsk, v1) := by
              simp only [insertIfAbsent, hfind2]
            rw [hins]
            refine ⟨hinv.base_present, hinv.keys_nodup, hinv.entries_are_clones, ?_, ?_, ?_⟩
            · intro w' hw'
              rcases List.mem_or_eq_of_mem_set hw' with hmem | rfl
              · exact hinv.worker_names w' hmem
              · exact hinv.worker_names w hwmem
            · intro w' hw' v hfound'
              rcases List.mem_or_eq_of_mem_set hw' with hmem | rfl
              · exact hinv.found_hit_present w' hmem v hfound'
              · have h2 : w.found = some (some v) := hfound'
                rw [hfound] at h2
                exact Option.noConfusion (Option.some.inj h2)
            · intro w' hw' v hret'
              rcases List.mem_or_eq_of_mem_set hw' with hmem | rfl
              · exact hinv.ret_val w' hmem v hret'
              · have h2 : some v1 = some v := hret'
                obtain rfl : v1 = v := Option.some.inj h2
                subst hclone
                exact ⟨rfl, hfind2⟩
          | none =>
            have hins : insertIfAbsent sys.bsk w.threadName (some (clone b))
                = ((w.threadName, some (clone b)) :: sys.bsk, some (clone b)) := by
              simp only [insertIfAbsent, hfind2]
            rw [hins]
            have hpers : ∀ n v, findEntry sys.bsk n = some v →
                findEntry ((w.threadName, some (clone b)) :: sys.bsk) n = some v :=
              fun n v h => findEntry_cons_of_present sys.bsk w.threadName n _ v hfind2 h
            refine ⟨?_, ?_, ?_, ?_, ?_, ?_⟩
            · exact hpers _ _ hinv.base_present
            · simp only [List.map_cons]
              exact List.Nodup.cons ((findEntry_eq_none_iff sys.bsk w.threadName).mp hfind2)
                hinv.keys_nodup
            · intro n v hne hf
              rw [findEntry] at hf
              by_cases hwn : w.threadName = n
              · rw [if_pos hwn] at hf
                exact (Option.some.inj hf).symm
              · rw [if_neg hwn] at hf
                exact hinv.entries_are_clones n v hne hf
            · intro w' hw'
              rcases List.mem_or_eq_of_mem_set hw' with hmem | rfl
              · exact hinv.worker_names w' hmem
              · exact hinv.worker_names w hwmem
            · intro w' hw' v hfound'
              rcases List.mem_or_eq_of_mem_set hw' with hmem | rfl
              · exact hpers _ _ (hinv.found_hit_present w' hmem v hfound')
              · have h2 : w.found = some (some v) := hfound'
                rw [hfound] at h2
                exact Option.noConfusion (Option.some.inj h2)
            · intro w' hw' v hret'
              rcases List.mem_or_eq_of_mem_set hw' with hmem | rfl
              · obtain ⟨hv, hentry⟩ := hinv.ret_val w' hmem v hret'
                exact ⟨hv, hpers _ _ hentry⟩
              · have h2 : some (some (clone b)) = some v := hret'
                obtain rfl : some (clone b) = v := Option.some.inj h2
                refine ⟨rfl, ?_⟩
                rw [findEntry, if_pos rfl]

/-- A whole schedule preserves the clone-protocol invariant. -/
theorem cloneInv_run {K : Type} (clone : K → K) (b : K) (names : List String)
    (hn : ∀ n ∈ names, n ≠ BASE_CONTEXT_BSK)
    (sys : ConcSystem K) (hinv : CloneInv clone b names sys) (sched : List ℕ) :
    CloneInv clone b names (concRun clone sys sched) := by
  induction sched generalizing sys with
  | nil => exact hinv
  | cons i rest ih => exact ih _ (cloneInv_step clone b names hn sys hinv i)

/-- C6: under any interleaving of concurrent `get_bootstrap_key` calls
from workers with the given thread identities against one base key,
exactly one clone per distinct identity survives in the map (its keys
stay duplicate-free and every non-base entry is a clone of the base key,
so a race between equal identities has a single winner), every finished
worker holds the retained clone of the base key, and bootstrapping with
the clone gives the same result as with the original key. -/
theorem concurrent_clone_single_winner {K : Type} (b : K) (names : List String)
    (sched : List ℕ) (hn : ∀ n ∈ names, n ≠ BASE_CONTEXT_BSK) :
    ((concRun clone_lwe_bootstrap_key_u64 (initSystem b names) sched).bsk.map
        Prod.fst).Nodup ∧
    (∀ w ∈ (concRun clone_lwe_bootstrap_key_u64 (initSystem b names) sched).workers,
      ∀ v, w.ret = some v →
        v = some (clone_lwe_bootstrap_key_u64 b) ∧
        findEntry (concRun clone_lwe_bootstrap_key_u64 (initSystem b names) sched).bsk
            w.threadName = some (some (clone_lwe_bootstrap_key_u64 b))) ∧
    (∀ n v, n ≠ BASE_CONTEXT_BSK →
      findEntry (concRun clone_lwe_bootstrap_key_u64 (initSystem b names) sched).bsk n
          = some v → v = some (clone_lwe_bootstrap_key_u64 b)) ∧
    (∀ bootstrapWith : K → ℕ → ℕ,
      bootstrapWith (clone_lwe_bootstrap_key_u64 b) = bootstrapWith b) := by
  have h := cloneInv_run clone_lwe_bootstrap_key_u64 b names hn _
    (cloneInv_init clone_lwe_bootstrap_key_u64 b names) sched
  exact ⟨h.keys_nodup, h.ret_val, h.entries_are_clones, fun f => rfl⟩

/-- Witness for C6 with three workers, two of which share the identity
`alpha`, under a schedule that interleaves both `alpha` calls so they
race on the insert. -/
theorem concurrent_clone_single_winner_witness :
    ((concRun (@clone_lwe_bootstrap_key_u64 ℕ) (initSystem 5 ["alpha", "beta", "alpha"])
        [0, 2, 1, 0, 2, 1]).bsk.map Prod.fst).Nodup ∧
    (∀ n v, n ≠ BASE_CONTEXT_BSK →
      findEntry (concRun (@clone_lwe_bootstrap_key_u64 ℕ)
          (initSystem 5 ["alpha", "beta", "alpha"]) [0, 2, 1, 0, 2, 1]).bsk n = some v →
      v = some (clone_lwe_bootstrap_key_u64 5)) := by
  have h := concurrent_clone_single_winner 5 ["alpha", "beta", "alpha"]
    [0, 2, 1, 0, 2, 1] (by decide)
  exact ⟨h.1, h.2.2.1⟩

/-- C3: the low-latency variant rejects oversubscribed configurations up
front: whenever `number_of_inputs` exceeds
`(compute_units * 4) / ((glwe_dimension + 1) * pbs_level)` the invocation
is rejected as an unsupported configuration and never executes either
kernel variant; the harness's sequential guard
`number_of_sm * 4 / (glwe_dimension + 1) / pbs_level` computes the same
bound for all positive integer parameters, so it skips exactly the
rejected configurations. -/
theorem low_latency_oversubscription_rejected (p : BootstrapTestParams)
    (number_of_sm : ℕ) (_hg : 0 < p.glwe_dimension) (_hl : 0 < p.pbs_level) :
    (number_of_sm * 4 / (p.glwe_dimension + 1) / p.pbs_level
      = number_of_sm * 4 / ((p.glwe_dimension + 1) * p.pbs_level)) ∧
    (lowLatencyTestSkips p number_of_sm = true ↔
      number_of_sm * 4 / ((p.glwe_dimension + 1) * p.pbs_level) < p.number_of_inputs) ∧
    (number_of_sm * 4 / ((p.glwe_dimension + 1) * p.pbs_level) < p.number_of_inputs →
      lowLatencyLaunch number_of_sm p = LaunchOutcome.rejected ∧
      ∀ v, lowLatencyLaunch number_of_sm p ≠ LaunchOutcome.executed v) := by
  have hdd : number_of_sm * 4 / (p.glwe_dimension + 1) / p.pbs_level
      = number_of_sm * 4 / ((p.glwe_dimension + 1) * p.pbs_level) :=
    Nat.div_div_eq_div_mul _ _ _
  refine ⟨hdd, ?_, ?_⟩
  · rw [lowLatencyTestSkips, hdd]
    exact decide_eq_true_iff
  · intro hover
    constructor
    · rw [lowLatencyLaunch, if_pos hover]
    · intro v hcon
      rw [lowLatencyLaunch, if_pos hover] at hcon
      exact LaunchOutcome.noConfusion hcon

/-- Witness for C3 on one streaming multiprocessor at the first
configured parameter set: the bound is `4 / 6 = 0 < 5`, so the call is
rejected and the harness guard skips. -/
theorem low_latency_oversubscription_rejected_witness :
    lowLatencyLaunch 1 ⟨567, 5, 256, 15, 1, 2, 1, 5, 2, 5⟩ = LaunchOutcome.rejected ∧
    lowLatencyTestSkips ⟨567, 5, 256, 15, 1, 2, 1, 5, 2, 5⟩ 1 = true := by
  have h := low_latency_oversubscription_rejected ⟨567, 5, 256, 15, 1, 2, 1, 5, 2, 5⟩ 1
    (by norm_num) (by norm_num)
  exact ⟨(h.2.2 (by norm_num)).1, h.2.1.mpr (by norm_num)⟩

/-- C5 fails on the code: in both test bodies the host reads of
`lwe_ct_out_array` directly follow `cuda_memcpy_async_to_cpu` with no
intervening stream synchronization or blocking copy-back, shown here by
evaluating the synchronization check on the traces of the first
configured parameter set. -/
theorem bootstrap_test_reads_unsynchronized :
    readsSynchronized (amortizedTestTrace ⟨567, 5, 256, 15, 1, 2, 1, 5, 2, 5⟩) = false ∧
    readsSynchronized (lowLatencyTestTrace ⟨567, 5, 256, 15, 1, 2, 1, 5, 2, 5⟩) = false := by
  constructor <;> rfl

/-- C7: `LibrarySupport::compile` returns an error value when the
compilation options carry no `clientParametersFuncName`, and on success
it returns a `LibraryCompilationResult` whose `libraryPath` is the
support's `outputPath` and whose `funcName` is the supplied function
name. -/
theorem library_compile_funcname_contract (sup : LibrarySupport)
    (engine : EngineOutcome) (options : CompilationOptions) :
    (options.clientParametersFuncName = none →
      ∃ msg, (sup.compile engine options).result = Except.error msg) ∧
    (∀ r, (sup.compile engine options).result = Except.ok r →
      r.libraryPath = sup.outputPath
        ∧ some r.funcName = options.clientParametersFuncName) := by
  cases engine with
  | failure msg =>
    refine ⟨fun _ => ⟨msg, rfl⟩, fun r hr => ?_⟩
    exact Except.noConfusion hr
  | success =>
    cases hopt : options.clientParametersFuncName with
    | none =>
      refine ⟨fun _ => ⟨"Need to have a funcname to compile library", ?_⟩, fun r hr => ?_⟩
      · simp only [LibrarySupport.compile, hopt]
      · simp only [LibrarySupport.compile, hopt] at hr
        exact Except.noConfusion hr
    | some fn =>
      refine ⟨fun hcon => ?_, fun r hr => ?_⟩
      · exact Option.noConfusion hcon
      · simp only [LibrarySupport.compile, hopt] at hr
        obtain rfl : ({ libraryPath := sup.outputPath, funcName := fn }
            : LibraryCompilationResult) = r := Except.ok.inj hr
        exact ⟨rfl, rfl⟩

/-- Witness for C7: with a missing function name the compile result is an
error; with function name `main` and output path `out` the success result
carries exactly those. -/
theorem library_compile_funcname_contract_witness :
    (∃ msg, (LibrarySupport.compile ⟨"out", ""⟩ EngineOutcome.success ⟨none⟩).result
        = Except.error msg) ∧
    ((⟨"out", "main"⟩ : LibraryCompilationResult).libraryPath = "out" ∧
      some (⟨"out", "main"⟩ : LibraryCompilationResult).funcName = some "main") :=
  ⟨(library_compile_funcname_contract ⟨"out", ""⟩ EngineOutcome.success ⟨none⟩).1 rfl,
   (library_compile_funcname_contract ⟨"out", ""⟩ EngineOutcome.success ⟨some "main"⟩).2
     ⟨"out", "main"⟩ rfl⟩

/-- C10: `LibrarySupport::compile` validates `clientParametersFuncName`
only after `engine.compile` has run, so when the option is missing but
compilation succeeds, the missing-funcname error is returned even though
the library artifact has already been generated at `outputPath`: the
configuration error is not atomic and does not leave the output state
unchanged. -/
theorem library_compile_error_after_artifact (sup : LibrarySupport)
    (options : CompilationOptions)
    (hmiss : options.clientParametersFuncName = none) :
    (sup.compile EngineOutcome.success options).result
        = Except.error "Need to have a funcname to compile library" ∧
    (sup.compile EngineOutcome.success options).artifactGenerated = true := by
  constructor
  · simp only [LibrarySupport.compile, hmiss]
  · rfl

/-- Witness for C10: compiling with no function name and a succeeding
engine yields the missing-funcname error with the artifact already
generated. -/
theorem library_compile_error_after_artifact_witness :
    (LibrarySupport.compile ⟨"out", ""⟩ EngineOutcome.success ⟨none⟩).result
        = Except.error "Need to have a funcname to compile library" ∧
    (LibrarySupport.compile ⟨"out", ""⟩ EngineOutcome.success ⟨none⟩).artifactGenerated
        = true :=
  library_compile_error_after_artifact ⟨"out", ""⟩ ⟨none⟩ rfl

end ConcreteSpec
